import Mathlib

set_option maxRecDepth 100000

/-!
Verification of the `money` package (`micro.go`): a fixed-point monetary
amount type `Micro` (an `int64` counting micro-units, i.e. units × 10⁻⁶),
with a decimal-string parser, a formatter, float conversions and checked
arithmetic.  Go strings are byte slices, so strings are embedded as
lists of byte values, `List Nat`; Go's `uint64` arithmetic is `Nat`
arithmetic with explicit reduction `% 2^64`, and Go's `int64` is `Int`
with explicit two's-complement wrapping where the source can wrap.
-/

instance {ε α : Type} [DecidableEq ε] [DecidableEq α] : DecidableEq (Except ε α) :=
  fun x y =>
    match x, y with
    | .ok a, .ok b =>
      if h : a = b then isTrue (by rw [h]) else isFalse (by intro hh; cases hh; exact h rfl)
    | .error a, .error b =>
      if h : a = b then isTrue (by rw [h]) else isFalse (by intro hh; cases hh; exact h rfl)
    | .ok _, .error _ => isFalse (by intro hh; cases hh)
    | .error _, .ok _ => isFalse (by intro hh; cases hh)

/-- The error values of the package: `ErrOverBounds`, `ErrInvalidInput`,
and `ErrOverflow` (the latter referenced by the arithmetic tests). -/
inductive GoErr where
  | overBounds
  | invalidInput
  | overflow
deriving DecidableEq, Repr

/-- `precisionExp = int64(6)` from the source. -/
def precisionExpN : Nat := 6

/-- `precision = Micro(1000000)` from the source. -/
def precisionN : Int := 1000000

/-- `largestAmount = int64(9000000000000000)` from the source. -/
def largestAmount : Int := 9000000000000000

/-- `smallestAmount = int64(-9000000000000000)` from the source. -/
def smallestAmount : Int := -9000000000000000

/-- `2^64`, the modulus of Go's `uint64` arithmetic. -/
def U64 : Nat := 18446744073709551616

/-- `1<<63 - 1`, Go's `math.MaxInt64`, used by the parser's sign-dependent
magnitude check. -/
def signMaxPos : Nat := 9223372036854775807

/-- `1<<63`, the magnitude bound for negative results in the parser. -/
def signMaxNeg : Nat := 9223372036854775808

/-- Reinterpretation of a `uint64` bit pattern as Go's `int64`
(the conversion `int64(result)` in the source). -/
def toInt64 (n : Nat) : Int :=
  if n < signMaxNeg then (n : Int) else (n : Int) - (U64 : Int)

/-- Two's-complement wrapping of an integer into `int64`, modelling Go's
native (wrapping) signed arithmetic. -/
def wrap64 (x : Int) : Int :=
  (x + (signMaxNeg : Int)) % (U64 : Int) - (signMaxNeg : Int)

/-- `checkNumberBounds` from the source: the shared bounds predicate. -/
def checkNumberBounds (amount : Int) : Option GoErr :=
  if amount < smallestAmount ∨ amount > largestAmount then some .overBounds
  else none

/-- Decimal digit bytes of `n`, most significant first, by structural
recursion on a fuel argument (`fuel ≥ n` suffices); empty for `n = 0`. -/
def natReprAux : Nat → Nat → List Nat
  | 0, _ => []
  | fuel + 1, n => if n = 0 then [] else natReprAux fuel (n / 10) ++ [48 + n % 10]

/-- Decimal representation of a natural number, as produced by Go's
`strconv.FormatInt` for nonnegative input (`"0"` for zero). -/
def natRepr (n : Nat) : List Nat :=
  if n = 0 then [48] else natReprAux n n

/-- `strconv.FormatInt(v, 10)` from the Go standard library. -/
def formatInt (v : Int) : List Nat :=
  if v < 0 then 45 :: natRepr v.natAbs else natRepr v.toNat

/-- `fmt.Sprintf("%06d", n)`: decimal digits left-padded with `'0'` to
width 6. -/
def pad6 (n : Nat) : List Nat :=
  List.replicate (6 - (natRepr n).length) 48 ++ natRepr n

/-- `strings.TrimRight(s, "0")`: drop all trailing `'0'` bytes. -/
def trimRightZeros (s : List Nat) : List Nat :=
  (s.reverse.dropWhile (fun c => c = 48)).reverse

/-- `ToFloatString` from the source: bounds check, truncating split into
integer part and fractional remainder, explicit minus sign when the
remainder is negative and the integer part is zero, 6-digit zero-padded
fraction with trailing zeros trimmed. -/
def ToFloatString (amount : Int) : Except GoErr (List Nat) :=
  match checkNumberBounds amount with
  | some e => .error e
  | none =>
    let decimal := Int.tdiv amount precisionN
    let fraction := Int.tmod amount precisionN
    let prefixPart : List Nat := if fraction < 0 ∧ decimal = 0 then [45] else []
    let fraction := if fraction < 0 then -fraction else fraction
    let buffer := prefixPart ++ formatInt decimal ++
      (if fraction > 0 then 46 :: pad6 fraction.toNat else [])
    .ok (if fraction > 0 then trimRightZeros buffer else buffer)

/-- The transient accumulator of `parseFloatStringInt` (spec §3's
"ParseAccumulator"): unsigned magnitude, sign, and the scan flags. -/
structure ScanState where
  result : Nat
  sign : Int
  digitsFound : Bool
  significantDigitFound : Bool
  dotFound : Bool
  decimalPartLength : Nat
deriving DecidableEq, Repr

/-- One iteration of the scan loop of `parseFloatStringInt` (the `switch`
over the current byte): dot handling, leading-zero skipping, the
7-fractional-digit cap, and the three overflow checks. -/
def scanStep (st : ScanState) (c : Nat) : Except GoErr ScanState :=
  if c = 46 then
    if st.dotFound then .error .invalidInput
    else .ok { st with dotFound := true }
  else if 48 ≤ c ∧ c ≤ 57 then
    let st := { st with digitsFound := true }
    if st.significantDigitFound = false ∧ st.dotFound = false ∧ c = 48 then .ok st
    else
      let st := { st with significantDigitFound := true }
      if st.decimalPartLength = precisionExpN + 1 then .ok st
      else
        let newResult := st.result * 10 % U64
        if st.result ≠ newResult / 10 then .error .overBounds
        else
          let newResult2 := (newResult + (c - 48)) % U64
          if newResult2 < newResult then .error .overBounds
          else if (st.sign = 1 ∧ newResult2 > signMaxPos) ∨
                  (st.sign = -1 ∧ newResult2 > signMaxNeg) then .error .overBounds
          else
            let st := if st.dotFound then
                { st with decimalPartLength := st.decimalPartLength + 1 }
              else st
            .ok { st with result := newResult2 }
  else .error .invalidInput

/-- The scan loop of `parseFloatStringInt` over the bytes after the sign. -/
def scanLoop (st : ScanState) : List Nat → Except GoErr ScanState
  | [] => .ok st
  | c :: rest =>
    match scanStep st c with
    | .error e => .error e
    | .ok st2 => scanLoop st2 rest

/-- The normalization loop of `parseFloatStringInt`: multiply by ten
`k` times, checking each step for `uint64` wrap-around. -/
def scaleLoop (r : Nat) : Nat → Except GoErr Nat
  | 0 => .ok r
  | k + 1 =>
    let nr := r * 10 % U64
    if r ≠ nr / 10 then .error .overBounds else scaleLoop nr k

/-- Initial scan state for a given sign. -/
def initState (sign : Int) : ScanState :=
  { result := 0, sign := sign, digitsFound := false,
    significantDigitFound := false, dotFound := false,
    decimalPartLength := 0 }

/-- Sign prefix handling of `parseFloatStringInt`: an optional leading
`'+'`/`'-'` sets the sign. -/
def splitSign (amount : List Nat) : Int × List Nat :=
  match amount with
  | [] => (1, [])
  | c :: t => if c = 43 then (1, t) else if c = 45 then (-1, t) else (1, c :: t)

/-- The post-scan phase of `parseFloatStringInt`: the no-digits check,
the 7th-fractional-digit rounding (or the power-of-ten normalization),
the cast to `int64`, the sign application and the bounds check. -/
def finishScan (sign : Int) (st : ScanState) : Except GoErr Int :=
  if st.digitsFound = false then .error .invalidInput
  else
    let finalRes : Except GoErr Nat :=
      if st.decimalPartLength > precisionExpN then
        let r := if st.result % 10 ≥ 5 then
            let nr := (st.result + 10) % U64
            if nr > st.result then nr else st.result
          else st.result
        .ok (r / 10)
      else scaleLoop st.result (precisionExpN - st.decimalPartLength)
    match finalRes with
    | .error e => .error e
    | .ok result =>
      let resultSigned := wrap64 (toInt64 result * sign)
      match checkNumberBounds resultSigned with
      | some e => .error e
      | none => .ok resultSigned

/-- `parseFloatStringInt` from the source: the manual-precision integer
scan of a decimal literal. -/
def parseFloatStringInt (amount : List Nat) : Except GoErr Int :=
  match amount with
  | [] => .error .invalidInput
  | _ =>
    let sr := splitSign amount
    match scanLoop (initState sr.1) sr.2 with
    | .error e => .error e
    | .ok st => finishScan sr.1 st

/-- The scan phase of `parseFloatStringInt` (sign prefix and loop),
exposed for stating properties of intermediate scan states. -/
def scanOf (amount : List Nat) : Except GoErr ScanState :=
  scanLoop (initState (splitSign amount).1) (splitSign amount).2

/-- The byte string `ToFloatString` produces for a magnitude `a`
(before the possible explicit minus byte): the decimal integer part,
then — when the fractional part is nonzero — a dot and the 6-digit
zero-padded fraction with trailing zeros trimmed. -/
def payloadB (a : Nat) : List Nat :=
  if a % 1000000 = 0 then natRepr (a / 1000000)
  else natRepr (a / 1000000) ++ 46 :: trimRightZeros (pad6 (a % 1000000))

/-- Decimal value of a digit-byte list, most significant first (the number
a digit string denotes). -/
def valB (ds : List Nat) : Nat := ds.foldl (fun a c => a * 10 + (c - 48)) 0

/-- A rational number as an unreduced fraction; `den` is positive for
every value built below.  Used to give exact semantics to `float64`
values and the decimal values of literals. -/
structure RatPair where
  num : Int
  den : Int
deriving DecidableEq, Repr

def rpAdd (x y : RatPair) : RatPair := ⟨x.num * y.den + y.num * x.den, x.den * y.den⟩

def rpMul (x y : RatPair) : RatPair := ⟨x.num * y.num, x.den * y.den⟩

/-- Truncation toward zero of a `RatPair` (the behavior of Go's
float-to-integer conversion for in-range values). -/
def rpTrunc (x : RatPair) : Int := x.num.tdiv x.den

/-- Floor of a `RatPair` with positive denominator. -/
def rpFloor (x : RatPair) : Int := x.num.fdiv x.den

/-- `2 ^ e` as a `RatPair`. -/
def pow2 (e : Int) : RatPair :=
  if 0 ≤ e then ⟨2 ^ e.toNat, 1⟩ else ⟨1, 2 ^ (-e).toNat⟩

/-- `10 ^ e` as a `RatPair`. -/
def pow10 (e : Int) : RatPair :=
  if 0 ≤ e then ⟨10 ^ e.toNat, 1⟩ else ⟨1, 10 ^ (-e).toNat⟩

/-- Round a `RatPair` (positive denominator) to the nearest integer,
ties to even: IEEE 754 unbiased rounding at integer granularity. -/
def rneInt (q : RatPair) : Int :=
  let n := rpFloor q
  let r := q.num - n * q.den
  if 2 * r < q.den then n
  else if q.den < 2 * r then n + 1
  else if n % 2 = 0 then n else n + 1

/-- A `float64` value: a finite exact rational (always representable, by
construction through `roundF64`), an infinity, or NaN. -/
inductive F64 where
  | finite (q : RatPair)
  | inf
  | neginf
  | nan
deriving DecidableEq, Repr

/-- Fuel bound for the binary-exponent search: generously more than the
number of binary digits of numerator and denominator plus the subnormal
offset. -/
def rpFuel (q : RatPair) : Nat :=
  8 * ((natRepr q.num.natAbs).length + (natRepr q.den.natAbs).length) + 1200

/-- Scale a positive rational by powers of two until it lies in `[1, 2)`,
returning the binary exponent `e` with `2^e ≤ q < 2^(e+1)`. -/
def expSearch : Nat → RatPair → Int → Int
  | 0, _, e => e
  | fuel + 1, q, e =>
    if q.num < q.den then expSearch fuel ⟨q.num * 2, q.den⟩ (e - 1)
    else if 2 * q.den ≤ q.num then expSearch fuel ⟨q.num, q.den * 2⟩ (e + 1)
    else e

/-- Round a positive rational to the nearest `float64` (round to nearest,
ties to even), with overflow to infinity and gradual underflow through
the subnormal range. -/
def roundF64Pos (q : RatPair) : F64 :=
  let e := expSearch (rpFuel q) q 0
  if e < -1022 then
    let m := rneInt (rpMul q (pow2 1074))
    .finite (rpMul ⟨m, 1⟩ (pow2 (-1074)))
  else
    let m := rneInt (rpMul q (pow2 (52 - e)))
    let me : Int × Int := if m = 2 ^ 53 then ((2 ^ 52 : Int), e + 1) else (m, e)
    if 1023 < me.2 then .inf
    else .finite (rpMul ⟨me.1, 1⟩ (pow2 (me.2 - 52)))

/-- Round an exact rational to the nearest `float64`. -/
def roundF64 (q : RatPair) : F64 :=
  if q.num = 0 then .finite ⟨0, 1⟩
  else if 0 < q.num then roundF64Pos q
  else
    match roundF64Pos ⟨-q.num, q.den⟩ with
    | .finite r => .finite ⟨-r.num, r.den⟩
    | .inf => .neginf
    | x => x

def fneg : F64 → F64
  | .finite q => .finite ⟨-q.num, q.den⟩
  | .inf => .neginf
  | .neginf => .inf
  | .nan => .nan

/-- IEEE 754 `float64` multiplication: exact product, then one rounding. -/
def fmul (x y : F64) : F64 :=
  match x, y with
  | .nan, _ => .nan
  | _, .nan => .nan
  | .finite a, .finite b => roundF64 (rpMul a b)
  | .inf, .inf => .inf
  | .inf, .neginf => .neginf
  | .neginf, .inf => .neginf
  | .neginf, .neginf => .inf
  | .inf, .finite b => if b.num = 0 then .nan else if 0 < b.num then .inf else .neginf
  | .finite a, .inf => if a.num = 0 then .nan else if 0 < a.num then .inf else .neginf
  | .neginf, .finite b => if b.num = 0 then .nan else if 0 < b.num then .neginf else .inf
  | .finite a, .neginf => if a.num = 0 then .nan else if 0 < a.num then .neginf else .inf

/-- IEEE 754 `float64` addition: exact sum, then one rounding. -/
def fadd (x y : F64) : F64 :=
  match x, y with
  | .nan, _ => .nan
  | _, .nan => .nan
  | .finite a, .finite b => roundF64 (rpAdd a b)
  | .inf, .neginf => .nan
  | .neginf, .inf => .nan
  | .inf, _ => .inf
  | _, .inf => .inf
  | .neginf, _ => .neginf
  | _, .neginf => .neginf

/-- IEEE 754 `float64` subtraction. -/
def fsub (x y : F64) : F64 := fadd x (fneg y)

/-- The comparison `result < 0` of the source on a `float64` (false for
NaN, as in IEEE 754). -/
def fltZero (x : F64) : Bool :=
  match x with
  | .finite q => q.num < 0
  | .neginf => true
  | _ => false

/-- `float64(precision)`, i.e. `1e6`, exactly representable. -/
def millionF : F64 := .finite ⟨1000000, 1⟩

/-- The `float64` constant `0.5` used for rounding in the source. -/
def halfF : F64 := .finite ⟨1, 2⟩

/-- Go's conversion `int64(f)` of a `float64`.  The Go specification
leaves the out-of-range and NaN cases implementation-dependent; this
models the amd64 behavior (result `0x8000000000000000`), which is the
behavior the package's own tests for `nan`/`inf` inputs rely on. -/
def goInt64ofF64 (x : F64) : Int :=
  match x with
  | .finite q =>
    let t := rpTrunc q
    if t < -(signMaxNeg : Int) ∨ (signMaxPos : Int) < t then -(signMaxNeg : Int) else t
  | _ => -(signMaxNeg : Int)

inductive FloatErr where
  | syntaxErr
  | rangeErr
deriving DecidableEq, Repr

def isDigitNat (c : Nat) : Bool := decide (48 ≤ c ∧ c ≤ 57)

def toLowerNat (c : Nat) : Nat := if 65 ≤ c ∧ c ≤ 90 then c + 32 else c

/-- Build the `float64` denoted by a decimal literal with mantissa `mant`
and decimal exponent `dexp`: the exact rational value rounded to nearest;
overflow to infinity is `strconv.ErrRange`. -/
def mkGoFloat (neg : Bool) (mant : Nat) (dexp : Int) : Except FloatErr F64 :=
  let q := rpMul ⟨(if neg then -(mant : Int) else (mant : Int)), 1⟩ (pow10 dexp)
  match roundF64 q with
  | .inf => .error .rangeErr
  | .neginf => .error .rangeErr
  | f => .ok f

/-- `strconv.ParseFloat(s, 64)` from the Go standard library, restricted
to decimal literals and the special tokens (`inf`, `infinity`, `nan`,
case-insensitive, with optional sign); hexadecimal literals and digit
underscores are not modelled (no caller here uses them).  Per its
documentation the result is the nearest `float64` under IEEE 754
unbiased rounding, with `ErrRange` on overflow and no error on
underflow. -/
def parseGoFloat (s : List Nat) : Except FloatErr F64 :=
  let sr : Bool × List Nat :=
    match s with
    | 43 :: t => (false, t)
    | 45 :: t => (true, t)
    | _ => (false, s)
  let low := sr.2.map toLowerNat
  if low = [105, 110, 102] ∨ low = [105, 110, 102, 105, 110, 105, 116, 121] then
    .ok (if sr.1 then .neginf else .inf)
  else if low = [110, 97, 110] then .ok .nan
  else
    let intPart := sr.2.takeWhile isDigitNat
    let rest2 := sr.2.drop intPart.length
    let fr : List Nat × List Nat :=
      match rest2 with
      | 46 :: t => (t.takeWhile isDigitNat, t.drop (t.takeWhile isDigitNat).length)
      | _ => ([], rest2)
    if intPart.length = 0 ∧ fr.1.length = 0 then .error .syntaxErr
    else
      match fr.2 with
      | [] => mkGoFloat sr.1 (valB (intPart ++ fr.1)) (-(fr.1.length : Int))
      | e :: t =>
        if e = 101 ∨ e = 69 then
          let er : Bool × List Nat :=
            match t with
            | 43 :: u => (false, u)
            | 45 :: u => (true, u)
            | _ => (false, t)
          if er.2.length = 0 ∨ ¬ (er.2.all isDigitNat = true) then .error .syntaxErr
          else
            let ev : Int := if er.1 then -(valB er.2 : Int) else (valB er.2 : Int)
            mkGoFloat sr.1 (valB (intPart ++ fr.1)) (ev - fr.1.length)
        else .error .syntaxErr

/-- `parseFloatStringFloat` from the source: `strconv.ParseFloat`, error
translation (`ErrRange` to `ErrOverBounds`, other parse errors to
`ErrInvalidInput`), multiplication by `float64(precision)`, half-away
rounding via `±0.5`, conversion to `int64` and the bounds check. -/
def parseFloatStringFloat (amount : List Nat) : Except GoErr Int :=
  match parseGoFloat amount with
  | .error .rangeErr => .error .overBounds
  | .error .syntaxErr => .error .invalidInput
  | .ok f =>
    let result := fmul f millionF
    let result := if fltZero result then fsub result halfF else fadd result halfF
    let resultInt := goInt64ofF64 result
    match checkNumberBounds resultInt with
    | some e => .error e
    | none => .ok resultInt

/-- `parseFloatString` from the source: empty input is invalid, the
integer scan is tried first, and on any of its errors the float fallback
decides the outcome. -/
def parseFloatString (amount : List Nat) : Except GoErr Int :=
  if amount.length = 0 then .error .invalidInput
  else
    match parseFloatStringInt amount with
    | .ok v => .ok v
    | .error _ => parseFloatStringFloat amount

/-- `FromFloatString` from the source. -/
def FromFloatString (amount : List Nat) : Except GoErr Int :=
  parseFloatString amount

/-- `strings.Trim(s, "\"")`: strip leading and trailing quote bytes. -/
def trimQuotes (l : List Nat) : List Nat :=
  ((l.dropWhile (fun c => c = 34)).reverse.dropWhile (fun c => c = 34)).reverse

/-- `UnmarshalJSON` from the source.  The Go method mutates its receiver;
here the receiver's value before the call is passed in and the pair
(returned error, receiver's value after the call) is returned. -/
def UnmarshalJSON (micro : Int) (src : Option (List Nat)) : Option GoErr × Int :=
  match src with
  | none => (none, micro)
  | some bytes =>
    match FromFloatString (trimQuotes bytes) with
    | .error e => (some e, micro)
    | .ok result => (none, result)

/-- `Scan` from the source, with the same receiver convention as
`UnmarshalJSON`.  A non-nil driver value is a byte slice here; the
source's type assertion `src.([]uint8)` on other types (a run-time
panic) is outside the model. -/
def Scan (micro : Int) (src : Option (List Nat)) : Option GoErr × Int :=
  match src with
  | none => (none, micro)
  | some bytes =>
    match FromFloatString bytes with
    | .error e => (some e, micro)
    | .ok result => (none, result)

/-- `DivideAndRound` from the source: add (or subtract, by sign) half the
divisor, then truncating division.  There is no zero-divisor check in
the source; Go's integer division by zero is a run-time panic, modelled
as `none`.  Native `int64` arithmetic wraps, hence `wrap64` (Go defines
`MinInt64 / -1 = MinInt64`). -/
def DivideAndRound (a b : Int) : Option Int :=
  if b = 0 then none
  else if (a < 0 ∨ b < 0) ∧ ¬(a < 0 ∧ b < 0) then
    some (wrap64 ((wrap64 (a - Int.tdiv b 2)).tdiv b))
  else
    some (wrap64 ((wrap64 (a + Int.tdiv b 2)).tdiv b))

/-- `FromFloat64Dollar` from the source: multiply by `float64(precision)`,
convert to `int64` (truncation), bounds check.  Note: no `±0.5` step. -/
def FromFloat64Dollar (amount : F64) : Except GoErr Int :=
  let resultFloat := fmul amount millionF
  let result := goInt64ofF64 resultFloat
  match checkNumberBounds result with
  | some e => .error e
  | none => .ok result

/-- Modelled from the spec: the checked addition `Add` is exercised by
`micro_test.go` (together with the error value `ErrOverflow`) but its
definition is not among the source files here; the name `Add` itself is
taken by a core typeclass, hence `AddMicro`.  Spec §4.3: "native
signed addition, overflow detected post-hoc: if both operands are
negative and the result is non-negative, or both are positive and the
result is non-positive, the addition wrapped → Overflow". -/
def AddMicro (a b : Int) : Except GoErr Int :=
  let result := wrap64 (a + b)
  if (a < 0 ∧ b < 0 ∧ 0 ≤ result) ∨ (0 < a ∧ 0 < b ∧ result ≤ 0) then .error .overflow
  else .ok result

/-- Written from the spec's words for comparison (spec §4.3 and glossary):
the exact rational quotient `a / b` rounded half-away-from-zero, a tie
going to the larger-magnitude neighbor. -/
def roundHalfAwayFromZero (a b : Int) : Int :=
  if 0 ≤ (a : ℚ) / (b : ℚ) then ⌊(a : ℚ) / (b : ℚ) + 1 / 2⌋
  else ⌈(a : ℚ) / (b : ℚ) - 1 / 2⌉

/-- Written from the spec's words for comparison (spec §4.4): the float
conversion as the spec describes it, with a half-away-from-zero rounding
step (`±0.5`) before truncation, then the bounds check. -/
def FromFloat64DollarSpec (amount : F64) : Except GoErr Int :=
  let resultFloat := fmul amount millionF
  let rounded := if fltZero resultFloat then fsub resultFloat halfF else fadd resultFloat halfF
  let result := goInt64ofF64 rounded
  match checkNumberBounds result with
  | some e => .error e
  | none => .ok result

-- scratch checks (to be removed)
example : parseFloatStringInt [50, 50, 46, 50, 50, 50, 50, 50, 50, 53] = .ok 22222223 := by decide
example : parseFloatStringInt [50, 50, 46, 50, 50, 50, 50, 50, 50, 52] = .ok 22222222 := by decide
example : parseFloatStringInt [45, 50, 50, 46, 50, 50, 50, 50, 50, 50, 53] = .ok (-22222223) := by decide
-- the wrap-around bug input "18437744073710"
example : parseFloatStringInt [49, 56, 52, 51, 55, 55, 52, 52, 48, 55, 51, 55, 49, 48] =
    .ok (-8999999999551616) := by decide
example : ToFloatString (-999999) = .ok [45, 48, 46, 57, 57, 57, 57, 57, 57] := by decide
example : ToFloatString (-1) = .ok [45, 48, 46, 48, 48, 48, 48, 48, 49] := by decide
example : ToFloatString 123523489000 = .ok [49, 50, 51, 53, 50, 51, 46, 52, 56, 57] := by decide
example : ToFloatString 0 = .ok [48] := by decide
example : parseFloatStringInt [57, 48, 48, 48, 48, 48, 48, 48, 48, 48, 46, 48, 48, 48, 48, 48, 49] =
    .error .overBounds := by decide
-- float path scratch checks
example : parseFloatString [48, 46, 49, 101, 49, 48] = .ok 1000000000000000 := by decide
example : parseFloatString [110, 97, 110] = .error .overBounds := by decide
example : parseFloatString [105, 110, 102] = .error .overBounds := by decide
example : parseFloatString [49, 101, 49, 48] = .error .overBounds := by decide
example : parseFloatString [49, 46, 55, 101, 45, 54] = .ok 2 := by decide
example : parseFloatString [120] = .error .invalidInput := by decide
example : FromFloat64Dollar (.finite ⟨1, 1048576⟩) = .ok 0 := by decide
example : FromFloat64DollarSpec (.finite ⟨1, 1048576⟩) = .ok 1 := by decide
example : FromFloat64Dollar (.finite ⟨1152921504606846976, 1⟩) = .error .overBounds := by decide
example : DivideAndRound 11 2 = some 6 := by decide
example : DivideAndRound (-11) 2 = some (-6) := by decide
example : DivideAndRound 1500 (-1000) = some (-2) := by decide
example : DivideAndRound 1 0 = none := by decide
example : AddMicro 9223372036854775807 1 = .error .overflow := by decide
example : AddMicro 9223372036854775807 0 = .ok 9223372036854775807 := by decide

/-! ## Claim C2: division by zero -/

/-- C2 counterexample: `DivideAndRound(1, 0)` does not return the
`DivisionByZero` error value to the caller — the function has no error
return at all, and a zero divisor is a Go run-time panic (integer divide
by zero), modelled as the absence of a result. -/
theorem c2_divide_by_zero_counterexample : DivideAndRound 1 0 = none := by decide

/-- C2 amended: `DivideAndRound` performs no zero-divisor check and
returns no error value; a call with divisor zero produces no result
(it is a run-time integer-division-by-zero panic in Go), and every call
with a nonzero divisor returns a value. -/
theorem c2_divide_by_zero_no_result : ∀ a b : Int, DivideAndRound a b = none ↔ b = 0 := by
  intro a b
  constructor
  · intro h
    by_contra hb
    unfold DivideAndRound at h
    rw [if_neg hb] at h
    split at h <;> simp_all
  · intro hb
    subst hb
    simp [DivideAndRound]

/-! ## Claim C3: totality of overflow detection -/

/-- C3: evaluation of the parser at the failing input `"18437744073710"`
(the decimal bytes below).  Its true magnitude, `1.843774407371 × 10¹⁹`
micro-units, exceeds the bound, yet the scan's normalization loop
overflows `uint64` undetected on the final multiplication and the
`int64` cast wraps to the in-bounds value `-8999999999551616`, which is
returned with no error — contradicting "never a wrapped or truncated
value".  The formatter half of the claim does hold, as the two
`ToFloatString` conjuncts show. -/
theorem c3_overflow_wraps_in_bounds :
    parseFloatString [49, 56, 52, 51, 55, 55, 52, 52, 48, 55, 51, 55, 49, 48] =
      .ok (-8999999999551616) ∧
    ToFloatString 9000000000000001 = .error .overBounds ∧
    ToFloatString (-9000000000000001) = .error .overBounds := by
  refine ⟨by decide, by decide, by decide⟩

/-! ## Claim C5: scientific notation and special tokens -/

/-- C5 counterexample: the scientific-notation literal `"0.1e10"` is not
rejected; the float fallback accepts it and the parser returns
`10¹⁵` micro-units with no error. -/
theorem c5_exponent_accepted_counterexample :
    parseFloatString [48, 46, 49, 101, 49, 48] = .ok 1000000000000000 := by decide

/-- C5 amended: special tokens (`inf`, `nan` and case variants) are
rejected with `ErrOverBounds`, and malformed exponents with
`ErrInvalidInput`; but a well-formed scientific-notation literal is
passed to the float fallback, which accepts it when its value is in
range (`"0.1e10"` parses to `10¹⁵`) and returns `ErrOverBounds` only
when it is out of range (`"1e10"`). -/
theorem c5_special_tokens_rejected :
    parseFloatString [110, 97, 110] = .error .overBounds ∧
    parseFloatString [78, 97, 78] = .error .overBounds ∧
    parseFloatString [78, 65, 78] = .error .overBounds ∧
    parseFloatString [105, 110, 102] = .error .overBounds ∧
    parseFloatString [45, 73, 110, 102] = .error .overBounds ∧
    parseFloatString [73, 110, 102, 105, 110, 105, 116, 121] = .error .overBounds ∧
    parseFloatString [49, 101, 49, 48] = .error .overBounds ∧
    parseFloatString [48, 46, 49, 101, 49, 48] = .ok 1000000000000000 ∧
    parseFloatString [49, 101] = .error .invalidInput := by
  refine ⟨by decide, by decide, by decide, by decide, by decide, by decide, by decide,
    by decide, by decide⟩

/-! ## Claim C7: checked addition (spec-modelled) -/

/-- C7: checked addition detects wrap-around symmetrically:
`add(MAX, MAX)` and `add(MAX, 1)` return `Overflow`, `add(MAX, 0)`
returns `MAX`; and whenever both operands are positive with non-positive
native (wrapped) sum, or both negative with non-negative native sum, the
result is `Overflow`. -/
theorem c7_add_overflow_symmetry :
    AddMicro 9223372036854775807 9223372036854775807 = .error .overflow ∧
    AddMicro 9223372036854775807 1 = .error .overflow ∧
    AddMicro 9223372036854775807 0 = .ok 9223372036854775807 ∧
    (∀ a b : Int, 0 < a → 0 < b → wrap64 (a + b) ≤ 0 → AddMicro a b = .error .overflow) ∧
    (∀ a b : Int, a < 0 → b < 0 → 0 ≤ wrap64 (a + b) → AddMicro a b = .error .overflow) := by
  refine ⟨by decide, by decide, by decide, ?_, ?_⟩
  · intro a b ha hb hw
    unfold AddMicro
    rw [if_pos (Or.inr ⟨ha, hb, hw⟩)]
  · intro a b ha hb hw
    unfold AddMicro
    rw [if_pos (Or.inl ⟨ha, hb, hw⟩)]

/-- C7 witness: the positive-overflow clause applied at `(MAX, 1)`. -/
theorem c7_add_overflow_witness : AddMicro 9223372036854775807 1 = .error .overflow :=
  c7_add_overflow_symmetry.2.2.2.1 9223372036854775807 1 (by decide) (by decide) (by decide)

/-! ## Claim C9: float-to-amount conversion -/

/-- C9 counterexample: at the exactly representable `float64` input
`2⁻²⁰`, `FromFloat64Dollar` returns `0`: it truncates the product
`2⁻²⁰ × 10⁶ ≈ 0.9537` toward zero with no half-away-from-zero rounding
step, while the conversion the claim describes (`FromFloat64DollarSpec`,
written from the spec's words) would return `1`. -/
theorem c9_no_rounding_counterexample :
    FromFloat64Dollar (.finite ⟨1, 1048576⟩) = .ok 0 ∧
    FromFloat64DollarSpec (.finite ⟨1, 1048576⟩) = .ok 1 := by
  refine ⟨by decide, by decide⟩

/-- C9 amended: `FromFloat64Dollar` multiplies by `10⁶` and truncates
toward zero with no rounding step (`7 × 2⁻²² × 10⁶ ≈ 1.668` yields `1`,
where the spec's rounding would yield `2`), validating the result
against the bounds (`2⁶⁰` yields `ErrOverBounds`); the string-float
fallback `parseFloatStringFloat` does round half-away-from-zero via
`±0.5` before truncating (`"1.7e-6"` yields `2` and `"-1.7e-6"` yields
`-2`). -/
theorem c9_truncation_vs_rounding :
    FromFloat64Dollar (.finite ⟨3, 2⟩) = .ok 1500000 ∧
    FromFloat64Dollar (.finite ⟨7, 4194304⟩) = .ok 1 ∧
    FromFloat64DollarSpec (.finite ⟨7, 4194304⟩) = .ok 2 ∧
    FromFloat64Dollar (.finite ⟨1152921504606846976, 1⟩) = .error .overBounds ∧
    parseFloatStringFloat [49, 46, 55, 101, 45, 54] = .ok 2 ∧
    parseFloatStringFloat [45, 49, 46, 55, 101, 45, 54] = .ok (-2) := by
  refine ⟨by decide, by decide, by decide, by decide, by decide, by decide⟩

/-! ## Claim C10: atomicity of UnmarshalJSON and Scan -/

/-- C10: `UnmarshalJSON` and `Scan` are atomic: a nil input returns a nil
error and leaves the receiver unchanged; a parse failure returns that
error and leaves the receiver unchanged; the receiver is modified only
when parsing succeeds, to the parsed value. -/
theorem c10_unmarshal_scan_atomic :
    (∀ old : Int, UnmarshalJSON old none = (none, old)) ∧
    (∀ old : Int, Scan old none = (none, old)) ∧
    (∀ (old : Int) (bytes : List Nat) (e : GoErr),
      FromFloatString (trimQuotes bytes) = .error e →
      UnmarshalJSON old (some bytes) = (some e, old)) ∧
    (∀ (old : Int) (bytes : List Nat) (v : Int),
      FromFloatString (trimQuotes bytes) = .ok v →
      UnmarshalJSON old (some bytes) = (none, v)) ∧
    (∀ (old : Int) (bytes : List Nat) (e : GoErr),
      FromFloatString bytes = .error e → Scan old (some bytes) = (some e, old)) ∧
    (∀ (old : Int) (bytes : List Nat) (v : Int),
      FromFloatString bytes = .ok v → Scan old (some bytes) = (none, v)) := by
  refine ⟨fun _ => rfl, fun _ => rfl, ?_, ?_, ?_, ?_⟩ <;>
    · intro old bytes x h
      simp [UnmarshalJSON, Scan, h]

/-- C10 witness: the parse-failure clause of the atomicity theorem at the
receiver value `7` and the malformed input `"x"`. -/
theorem c10_unmarshal_scan_witness : UnmarshalJSON 7 (some [120]) = (some .invalidInput, 7) :=
  c10_unmarshal_scan_atomic.2.2.1 7 [120] .invalidInput (by decide)

/-! ## Scan-loop lemmas -/

theorem scanStep_skip_digit (st : ScanState) (c : Nat)
    (hc : 48 ≤ c ∧ c ≤ 57)
    (hdig : st.digitsFound = true)
    (hsig : st.significantDigitFound = true)
    (hdpl : st.decimalPartLength = precisionExpN + 1) :
    scanStep st c = .ok st := by
  obtain ⟨r, sg, df, sig, dot, dpl⟩ := st
  simp only at hdig hsig hdpl
  subst hdig hsig hdpl
  obtain ⟨hc1, hc2⟩ := hc
  have h46 : ¬ (c = 46) := by omega
  simp [scanStep, h46, hc1, hc2]

theorem scanLoop_skip_digits (ds : List Nat) (st : ScanState)
    (hall : ∀ c ∈ ds, 48 ≤ c ∧ c ≤ 57)
    (hdig : st.digitsFound = true)
    (hsig : st.significantDigitFound = true)
    (hdpl : st.decimalPartLength = precisionExpN + 1) :
    scanLoop st ds = .ok st := by
  induction ds with
  | nil => rfl
  | cons c t ih =>
    have hc := hall c (List.mem_cons_self c t)
    simp only [scanLoop, scanStep_skip_digit st c hc hdig hsig hdpl]
    exact ih fun x hx => hall x (List.mem_cons_of_mem c hx)

theorem scanStep_dpl_inv (st st2 : ScanState) (c : Nat)
    (h : scanStep st c = .ok st2)
    (hinv : st.decimalPartLength ≠ 0 →
      st.digitsFound = true ∧ st.significantDigitFound = true) :
    st2.decimalPartLength ≠ 0 →
      st2.digitsFound = true ∧ st2.significantDigitFound = true := by
  obtain ⟨r, sg, df, sig, dot, dpl⟩ := st
  unfold scanStep at h
  dsimp only at h hinv
  split at h
  · split at h
    · cases h
    · cases h
      exact hinv
  · split at h
    · split at h
      · cases h
        intro hd
        exact ⟨rfl, (hinv hd).2⟩
      · split at h
        · cases h
          intro hd
          exact ⟨rfl, rfl⟩
        · split at h
          · cases h
          · split at h
            · cases h
            · split at h
              · cases h
              · split at h <;> cases h <;> intro hd <;> exact ⟨rfl, rfl⟩
    · cases h

theorem scanLoop_dpl_inv (ds : List Nat) (st st2 : ScanState)
    (h : scanLoop st ds = .ok st2)
    (hinv : st.decimalPartLength ≠ 0 →
      st.digitsFound = true ∧ st.significantDigitFound = true) :
    st2.decimalPartLength ≠ 0 →
      st2.digitsFound = true ∧ st2.significantDigitFound = true := by
  induction ds generalizing st with
  | nil =>
    cases h
    exact hinv
  | cons c t ih =>
    simp only [scanLoop] at h
    cases hs : scanStep st c with
    | error e => rw [hs] at h; cases h
    | ok stm =>
      rw [hs] at h
      exact ih stm h (scanStep_dpl_inv st stm c hs hinv)

theorem scanLoop_append (l1 l2 : List Nat) (st : ScanState) :
    scanLoop st (l1 ++ l2) =
      match scanLoop st l1 with
      | .error e => .error e
      | .ok st2 => scanLoop st2 l2 := by
  induction l1 generalizing st with
  | nil => rfl
  | cons c t ih =>
    simp only [List.cons_append, scanLoop]
    cases scanStep st c <;> simp [ih]

theorem splitSign_cons_append (c : Nat) (t extra : List Nat) :
    splitSign ((c :: t) ++ extra) =
      ((splitSign (c :: t)).1, (splitSign (c :: t)).2 ++ extra) := by
  by_cases h43 : c = 43
  · simp [splitSign, h43]
  · by_cases h45 : c = 45
    · simp [splitSign, h43, h45]
    · simp [splitSign, h43, h45]

theorem parseFloatStringInt_eq (c : Nat) (t : List Nat) :
    parseFloatStringInt (c :: t) =
      match scanOf (c :: t) with
      | .error e => .error e
      | .ok st => finishScan (splitSign (c :: t)).1 st := rfl

/-! ## Claim C4: rounding on the 7th fractional digit only -/

/-- C4: the parser rounds half-away-from-zero on the 7th fractional
digit (`"22.2222225"` parses to `22222223`, `"22.2222224"` to
`22222222`), and any further digit bytes appended after a scan state
that has already captured 7 fractional digits leave the parse result
unchanged — digits beyond the 7th fractional position are accepted
syntactically but influence neither the magnitude nor the rounding
decision. -/
theorem c4_seventh_digit_rounding :
    parseFloatString [50, 50, 46, 50, 50, 50, 50, 50, 50, 53] = .ok 22222223 ∧
    parseFloatString [50, 50, 46, 50, 50, 50, 50, 50, 50, 52] = .ok 22222222 ∧
    ∀ (s extra : List Nat) (st : ScanState),
      scanOf s = .ok st →
      st.decimalPartLength = precisionExpN + 1 →
      (∀ c ∈ extra, 48 ≤ c ∧ c ≤ 57) →
      parseFloatStringInt (s ++ extra) = parseFloatStringInt s := by
  refine ⟨by decide, by decide, ?_⟩
  intro s extra st hscan hdpl hall
  cases s with
  | nil =>
    have hst : ScanState.decimalPartLength st = 0 := by
      have : scanOf ([] : List Nat) = .ok (initState 1) := rfl
      rw [this] at hscan
      cases hscan
      rfl
    rw [hst] at hdpl
    exact absurd hdpl (by decide)
  | cons c t =>
    have hdpl0 : ScanState.decimalPartLength st ≠ 0 := by
      rw [hdpl]; decide
    obtain ⟨hdig, hsig⟩ := scanLoop_dpl_inv _ _ _ hscan (fun h => absurd rfl h) hdpl0
    have hskip : scanLoop st extra = .ok st :=
      scanLoop_skip_digits extra st hall hdig hsig hdpl
    have hmain : scanOf ((c :: t) ++ extra) = .ok st := by
      unfold scanOf
      rw [splitSign_cons_append]
      rw [scanLoop_append]
      unfold scanOf at hscan
      rw [hscan]
      exact hskip
    cases extra with
    | nil => simp
    | cons e es =>
      rw [parseFloatStringInt_eq c t]
      rw [List.cons_append, parseFloatStringInt_eq c (t ++ e :: es)]
      rw [← List.cons_append, hmain, hscan]
      rw [splitSign_cons_append]

/-- C4 witness: the append-invariance clause at `"22.2222225"` extended
by the digit `'9'`: `"22.22222259"` parses identically. -/
theorem c4_seventh_digit_witness :
    parseFloatStringInt ([50, 50, 46, 50, 50, 50, 50, 50, 50, 53] ++ [57]) =
      parseFloatStringInt [50, 50, 46, 50, 50, 50, 50, 50, 50, 53] :=
  c4_seventh_digit_rounding.2.2 [50, 50, 46, 50, 50, 50, 50, 50, 50, 53] [57]
    ⟨222222225, 1, true, true, true, 7⟩ (by decide) (by decide) (by decide)

/-! ## Digit-string value lemmas -/

theorem valB_foldl (ds : List Nat) (acc : Nat) :
    ds.foldl (fun a c => a * 10 + (c - 48)) acc = acc * 10 ^ ds.length + valB ds := by
  induction ds generalizing acc with
  | nil => simp [valB]
  | cons c t ih =>
    show List.foldl _ (acc * 10 + (c - 48)) t = acc * 10 ^ (c :: t).length + valB (c :: t)
    rw [ih]
    have hv : valB (c :: t) = (c - 48) * 10 ^ t.length + valB t := by
      show List.foldl _ (0 * 10 + (c - 48)) t = _
      rw [ih]
      simp
    rw [hv, List.length_cons, pow_succ]
    ring

theorem valB_cons (c : Nat) (t : List Nat) :
    valB (c :: t) = (c - 48) * 10 ^ t.length + valB t := by
  show List.foldl _ (0 * 10 + (c - 48)) t = _
  rw [valB_foldl]
  simp

theorem valB_append (a b : List Nat) :
    valB (a ++ b) = valB a * 10 ^ b.length + valB b := by
  show List.foldl _ 0 (a ++ b) = _
  rw [List.foldl_append]
  exact valB_foldl b (valB a)

theorem valB_single (c : Nat) : valB [c] = c - 48 := by
  simp [valB]

theorem valB_lt (ds : List Nat) (h : ∀ c ∈ ds, c ≤ 57) : valB ds < 10 ^ ds.length := by
  induction ds with
  | nil => simp [valB]
  | cons c t ih =>
    have hc : c - 48 ≤ 9 := by
      have := h c (List.mem_cons_self c t)
      omega
    have h1 : (c - 48) * 10 ^ t.length ≤ 9 * 10 ^ t.length :=
      Nat.mul_le_mul_right _ hc
    have h2 := ih fun x hx => h x (List.mem_cons_of_mem c hx)
    rw [valB_cons, List.length_cons, pow_succ]
    omega

theorem valB_eq_zero_of_all48 (l : List Nat) (h : ∀ c ∈ l, c = 48) : valB l = 0 := by
  induction l with
  | nil => rfl
  | cons c t ih =>
    rw [valB_cons, h c (List.mem_cons_self c t)]
    simp [ih fun x hx => h x (List.mem_cons_of_mem c hx)]

theorem valB_replicate48 (k : Nat) : valB (List.replicate k 48) = 0 :=
  valB_eq_zero_of_all48 _ fun _ hc => List.eq_of_mem_replicate hc

/-! ## Lemmas about the decimal representation -/

theorem natReprAux_spec (f n : Nat) (hf : n ≤ f) :
    valB (natReprAux f n) = n ∧
    (∀ c ∈ natReprAux f n, 48 ≤ c ∧ c ≤ 57) ∧
    (natReprAux f n = [] ↔ n = 0) ∧
    (∀ d t, natReprAux f n = d :: t → 49 ≤ d) := by
  induction f generalizing n with
  | zero =>
    have hn : n = 0 := by omega
    subst hn
    refine ⟨rfl, by simp [natReprAux], by simp [natReprAux], by simp [natReprAux]⟩
  | succ f ih =>
    by_cases hn : n = 0
    · subst hn
      refine ⟨rfl, by simp [natReprAux], by simp [natReprAux], by simp [natReprAux]⟩
    · obtain ⟨ihv, ihd, ihe, ihh⟩ := ih (n / 10) (by omega)
      simp only [natReprAux, if_neg hn]
      refine ⟨?_, ?_, ?_, ?_⟩
      · rw [valB_append, ihv, valB_single]
        simp only [List.length_singleton, pow_one]
        omega
      · intro c hc
        rcases List.mem_append.mp hc with hm | hm
        · exact ihd c hm
        · have : c = 48 + n % 10 := List.mem_singleton.mp hm
          omega
      · constructor
        · intro h
          exact absurd h (by simp)
        · intro h
          exact absurd h hn
      · intro d t h
        cases he : natReprAux f (n / 10) with
        | nil =>
          rw [he, List.nil_append] at h
          have hd : d = 48 + n % 10 := ((List.cons.injEq _ _ _ _ ▸ h).1).symm
          have h10 : n / 10 = 0 := ihe.mp he
          omega
        | cons d0 t0 =>
          rw [he, List.cons_append] at h
          have hd : d = d0 := ((List.cons.injEq _ _ _ _ ▸ h).1).symm
          rw [hd]
          exact ihh d0 t0 he

theorem natReprAux_length (f n k : Nat) (hf : n ≤ f) (hk : n < 10 ^ k) :
    (natReprAux f n).length ≤ k := by
  induction f generalizing n k with
  | zero =>
    have hn : n = 0 := by omega
    subst hn
    simp [natReprAux]
  | succ f ih =>
    by_cases hn : n = 0
    · simp [natReprAux, hn]
    · simp only [natReprAux, if_neg hn, List.length_append, List.length_singleton]
      cases k with
      | zero =>
        simp only [pow_zero] at hk
        omega
      | succ k =>
        have hk2 : n / 10 < 10 ^ k := by
          rw [pow_succ] at hk
          omega
        have := ih (n / 10) k (by omega) hk2
        omega

theorem natRepr_val (n : Nat) : valB (natRepr n) = n := by
  unfold natRepr
  by_cases hn : n = 0
  · simp [hn, valB_single]
  · rw [if_neg hn]
    exact (natReprAux_spec n n le_rfl).1

theorem natRepr_digits (n : Nat) : ∀ c ∈ natRepr n, 48 ≤ c ∧ c ≤ 57 := by
  unfold natRepr
  by_cases hn : n = 0
  · simp [hn]
  · rw [if_neg hn]
    exact (natReprAux_spec n n le_rfl).2.1

theorem natRepr_ne_nil (n : Nat) : natRepr n ≠ [] := by
  unfold natRepr
  by_cases hn : n = 0
  · simp [hn]
  · rw [if_neg hn]
    intro h
    exact hn ((natReprAux_spec n n le_rfl).2.2.1.mp h)

theorem natRepr_head_pos (n : Nat) (hn : n ≠ 0) (d : Nat) (t : List Nat)
    (h : natRepr n = d :: t) : 49 ≤ d ∧ d ≤ 57 := by
  have h49 : 49 ≤ d := by
    unfold natRepr at h
    rw [if_neg hn] at h
    exact (natReprAux_spec n n le_rfl).2.2.2 d t h
  have h57 : d ≤ 57 := (natRepr_digits n d (h ▸ List.mem_cons_self d t)).2
  exact ⟨h49, h57⟩

theorem natRepr_length_le (n k : Nat) (hk : 1 ≤ k) (h : n < 10 ^ k) :
    (natRepr n).length ≤ k := by
  unfold natRepr
  by_cases hn : n = 0
  · simp [hn]
    omega
  · rw [if_neg hn]
    exact natReprAux_length n n k le_rfl h

/-! ## Lemmas about padding and trailing-zero trimming -/

theorem pad6_val (n : Nat) : valB (pad6 n) = n := by
  unfold pad6
  rw [valB_append, valB_replicate48, natRepr_val]
  simp

theorem pad6_digits (n : Nat) : ∀ c ∈ pad6 n, 48 ≤ c ∧ c ≤ 57 := by
  intro c hc
  rcases List.mem_append.mp hc with hm | hm
  · have : c = 48 := List.eq_of_mem_replicate hm
    omega
  · exact natRepr_digits n c hm

theorem pad6_length (n : Nat) (h : n < 1000000) : (pad6 n).length = 6 := by
  unfold pad6
  rw [List.length_append, List.length_replicate]
  have : (natRepr n).length ≤ 6 := natRepr_length_le n 6 (by omega) (by norm_num; omega)
  omega

theorem trimRightZeros_append48 (l : List Nat) :
    trimRightZeros (l ++ [48]) = trimRightZeros l := by
  unfold trimRightZeros
  rw [List.reverse_append]
  simp [List.dropWhile]

theorem trimRightZeros_append_ne (l : List Nat) (c : Nat) (hc : ¬ c = 48) :
    trimRightZeros (l ++ [c]) = l ++ [c] := by
  unfold trimRightZeros
  rw [List.reverse_append]
  simp [List.dropWhile, hc]

theorem trimRightZeros_structure (l : List Nat) :
    ∃ k, l = trimRightZeros l ++ List.replicate k 48 := by
  induction l using List.reverseRecOn with
  | nil => exact ⟨0, rfl⟩
  | append_singleton l c ih =>
    by_cases hc : c = 48
    · subst hc
      rw [trimRightZeros_append48]
      obtain ⟨k, hk⟩ := ih
      refine ⟨k + 1, ?_⟩
      conv_lhs => rw [hk]
      rw [List.append_assoc, ← List.replicate_succ']
    · rw [trimRightZeros_append_ne l c hc]
      exact ⟨0, by simp⟩

theorem trimRightZeros_val (l : List Nat) :
    ∃ k, l = trimRightZeros l ++ List.replicate k 48 ∧
      l.length = (trimRightZeros l).length + k ∧
      valB l = valB (trimRightZeros l) * 10 ^ k := by
  obtain ⟨k, hk⟩ := trimRightZeros_structure l
  refine ⟨k, hk, ?_, ?_⟩
  · conv_lhs => rw [hk]
    simp
  · conv_lhs => rw [hk]
    rw [valB_append, valB_replicate48, List.length_replicate]
    simp

theorem trimRightZeros_sub (l : List Nat) (c : Nat) (hc : c ∈ trimRightZeros l) : c ∈ l := by
  obtain ⟨k, hk⟩ := trimRightZeros_structure l
  rw [hk]
  exact List.mem_append.mpr (Or.inl hc)

theorem trimRightZeros_ne_nil (l : List Nat) (h : valB l ≠ 0) : trimRightZeros l ≠ [] := by
  intro hnil
  obtain ⟨k, hk, _, hv⟩ := trimRightZeros_val l
  rw [hnil] at hv
  simp [valB] at hv
  exact h hv

theorem exists_ne48_of_valB_pos (l : List Nat) (h : valB l ≠ 0) : ∃ c ∈ l, ¬ c = 48 := by
  by_contra hall
  push_neg at hall
  exact h (valB_eq_zero_of_all48 l hall)

theorem trimRightZeros_append_keep (l1 l2 : List Nat) (h : ∃ c ∈ l2, ¬ c = 48) :
    trimRightZeros (l1 ++ l2) = l1 ++ trimRightZeros l2 := by
  unfold trimRightZeros
  rw [List.reverse_append, List.dropWhile_append]
  have hne : ¬ (l2.reverse.dropWhile (fun c => c = 48)).isEmpty = true := by
    rw [List.isEmpty_iff, List.dropWhile_eq_nil_iff]
    intro hall
    obtain ⟨c, hc, hcne⟩ := h
    exact hcne (by simpa using hall c (List.mem_reverse.mpr hc))
  rw [if_neg hne, List.reverse_append, List.reverse_reverse]

/-! ## Truncating division and modulus helpers -/

theorem tmod_neg_left (a b : Int) : (-a).tmod b = -(a.tmod b) := by
  rw [Int.tmod_def, Int.tmod_def, Int.neg_tdiv]
  ring

/-! ## Claim C6: sign preservation near zero -/

/-- C6: the formatter keeps the sign of small negative amounts whose
integer part truncates to zero: `ToFloatString(-999999) = "-0.999999"`,
`ToFloatString(-1) = "-0.000001"`, and in general whenever the
truncating remainder is negative while the truncating quotient is
exactly zero the output starts with the minus byte. -/
theorem c6_sign_preservation_near_zero :
    ToFloatString (-999999) = .ok [45, 48, 46, 57, 57, 57, 57, 57, 57] ∧
    ToFloatString (-1) = .ok [45, 48, 46, 48, 48, 48, 48, 48, 49] ∧
    ∀ v : Int, Int.tdiv v precisionN = 0 → Int.tmod v precisionN < 0 →
      ∃ rest, ToFloatString v = .ok (45 :: rest) := by
  refine ⟨by decide, by decide, ?_⟩
  intro v hq hr
  have hveq : Int.tmod v precisionN = v := by
    have h0 := Int.tdiv_add_tmod v precisionN
    rw [hq] at h0
    simpa using h0
  have hub : Int.tmod (-v) precisionN < precisionN :=
    Int.tmod_lt_of_pos (-v) (by norm_num [precisionN])
  have h1 : Int.tmod v precisionN = -(Int.tmod (-v) precisionN) := by
    rw [← tmod_neg_left, neg_neg]
  have hlb : -precisionN < v := by omega
  have hvneg : v < 0 := hveq ▸ hr
  have hb1 : ¬ (v < smallestAmount ∨ v > largestAmount) := by
    unfold smallestAmount largestAmount
    unfold precisionN at hlb
    omega
  have hfr : (0 : Int) < -(Int.tmod v precisionN) := by omega
  have hfrn : (-(Int.tmod v precisionN)).toNat ≠ 0 := by omega
  refine ⟨48 :: 46 :: trimRightZeros (pad6 ((-(Int.tmod v precisionN)).toNat)), ?_⟩
  unfold ToFloatString checkNumberBounds
  rw [if_neg hb1]
  dsimp only
  rw [hq]
  rw [if_pos hr]
  rw [if_pos (⟨hr, rfl⟩ : Int.tmod v precisionN < 0 ∧ (0 : Int) = 0)]
  rw [if_pos hfr, if_pos hfr]
  have hform : formatInt 0 = [48] := rfl
  rw [hform]
  have hshape : ([45] : List Nat) ++ [48] ++
      46 :: pad6 ((-(Int.tmod v precisionN)).toNat) =
      ([45, 48, 46] : List Nat) ++ pad6 ((-(Int.tmod v precisionN)).toNat) := by
    simp
  rw [hshape, trimRightZeros_append_keep]
  · rfl
  · apply exists_ne48_of_valB_pos
    rw [pad6_val]
    exact hfrn

/-- C6 witness: the general sign-preservation clause applied at `v = -5`
(quotient `0`, remainder `-5`). -/
theorem c6_sign_preservation_witness :
    ∃ rest, ToFloatString (-5) = .ok (45 :: rest) :=
  c6_sign_preservation_near_zero.2.2 (-5) (by decide) (by decide)

/-! ## Rounding arithmetic for division -/

theorem wrap64_id (x : Int) (h1 : -9223372036854775808 ≤ x)
    (h2 : x ≤ 9223372036854775807) : wrap64 x = x := by
  unfold wrap64 signMaxNeg U64
  omega

theorem wrap64_natCast_le (n : Nat) (h : n ≤ 9223372036854775807) :
    wrap64 (n : Int) = (n : Int) :=
  wrap64_id _ (by omega) (by omega)

theorem wrap64_neg_natCast_le (n : Nat) (h : n ≤ 9223372036854775808) :
    wrap64 (-(n : Int)) = -(n : Int) :=
  wrap64_id _ (by omega) (by omega)

theorem natDivRound (x y : Nat) (hy : 0 < y) :
    (x + y / 2) / y = (2 * x + y) / (2 * y) := by
  rcases Nat.mod_two_eq_zero_or_one y with hr | hr
  · have hy2 : y = 2 * (y / 2) := by omega
    conv_rhs => rw [hy2]
    have h2 : 2 * x + 2 * (y / 2) = 2 * (x + y / 2) := by ring
    rw [h2, Nat.mul_div_mul_left _ _ (by norm_num : (0 : Nat) < 2), ← hy2]
  · rw [← Nat.div_div_eq_div_mul]
    congr 1
    omega

theorem floorAddHalf (x y : Nat) (hy : 0 < y) :
    ⌊(x : ℚ) / (y : ℚ) + 1 / 2⌋ = (((2 * x + y) / (2 * y) : Nat) : Int) := by
  have hyq : (y : ℚ) ≠ 0 := Nat.cast_ne_zero.mpr (by omega)
  have h : (x : ℚ) / (y : ℚ) + 1 / 2 = ((2 * x + y : Nat) : ℚ) / ((2 * y : Nat) : ℚ) := by
    push_cast
    field_simp
    ring
  rw [h, Rat.floor_natCast_div_natCast, Int.ofNat_ediv]

theorem roundAway_base (x y : Nat) (hy : 0 < y) :
    roundHalfAwayFromZero (x : Int) (y : Int) = (((x + y / 2) / y : Nat) : Int) := by
  unfold roundHalfAwayFromZero
  have hq0 : (0 : ℚ) ≤ ((x : Int) : ℚ) / ((y : Int) : ℚ) := by positivity
  rw [if_pos hq0, natDivRound x y hy]
  have hcast : ((x : Int) : ℚ) / ((y : Int) : ℚ) = (x : ℚ) / (y : ℚ) := by push_cast; ring
  rw [hcast]
  exact floorAddHalf x y hy

theorem roundAwayQ_neg (q : ℚ) :
    (if 0 ≤ -q then ⌊-q + 1 / 2⌋ else ⌈-q - 1 / 2⌉) =
      -(if 0 ≤ q then ⌊q + 1 / 2⌋ else ⌈q - 1 / 2⌉) := by
  rcases lt_trichotomy q 0 with h | h | h
  · rw [if_pos (by linarith), if_neg (by linarith)]
    have he : -q + 1 / 2 = -(q - 1 / 2) := by ring
    rw [he, Int.floor_neg]
  · rw [h]
    norm_num
  · rw [if_neg (by linarith), if_pos (by linarith)]
    have he : -q - 1 / 2 = -(q + 1 / 2) := by ring
    rw [he, Int.ceil_neg]

theorem roundAway_neg_left (a b : Int) :
    roundHalfAwayFromZero (-a) b = -roundHalfAwayFromZero a b := by
  unfold roundHalfAwayFromZero
  have hc : ((-a : Int) : ℚ) / ((b : Int) : ℚ) = -(((a : Int) : ℚ) / ((b : Int) : ℚ)) := by
    push_cast
    ring
  rw [hc]
  exact roundAwayQ_neg _

theorem roundAway_neg_right (a b : Int) :
    roundHalfAwayFromZero a (-b) = -roundHalfAwayFromZero a b := by
  unfold roundHalfAwayFromZero
  have hc : ((a : Int) : ℚ) / ((-b : Int) : ℚ) = -(((a : Int) : ℚ) / ((b : Int) : ℚ)) := by
    push_cast
    ring
  rw [hc]
  exact roundAwayQ_neg _

theorem dar_core (x y : Nat) (hx : x ≤ 9000000000000000) (hy : 0 < y)
    (hy2 : y ≤ 9223372036854775808) :
    wrap64 ((wrap64 ((x : Int) + Int.tdiv (y : Int) 2)).tdiv (y : Int)) =
      (((x + y / 2) / y : Nat) : Int) := by
  have h1 : Int.tdiv (y : Int) 2 = ((y / 2 : Nat) : Int) := (Int.ofNat_tdiv y 2).symm
  have h2 : (x : Int) + ((y / 2 : Nat) : Int) = ((x + y / 2 : Nat) : Int) := by push_cast; ring
  have hb : x + y / 2 ≤ 4620686018427387904 := by omega
  rw [h1, h2, wrap64_natCast_le _ (by omega), ← Int.ofNat_tdiv,
    wrap64_natCast_le _ (le_trans (Nat.div_le_self _ _) (by omega))]

theorem dar_core_neg (x y : Nat) (hx : x ≤ 9000000000000000) (hy : 0 < y)
    (hy2 : y ≤ 9223372036854775808) :
    wrap64 ((wrap64 (-((x + y / 2 : Nat) : Int))).tdiv (y : Int)) =
      -(((x + y / 2) / y : Nat) : Int) := by
  have hb : x + y / 2 ≤ 4620686018427387904 := by omega
  rw [wrap64_neg_natCast_le _ (by omega), Int.neg_tdiv, ← Int.ofNat_tdiv,
    wrap64_neg_natCast_le _ (le_trans (Nat.div_le_self _ _) (by omega))]

/-! ## Claim C8: DivideAndRound rounds half-away-from-zero -/

/-- C8: for every in-bounds amount `a` and nonzero `int64` divisor `b`,
`DivideAndRound(a, b)` — which adds (or subtracts, by the sign pattern)
half the divisor before truncating division — returns exactly the
rational quotient `a / b` rounded half-away-from-zero (ties to the
larger-magnitude neighbor), with no wrap-around in the intermediate
`int64` arithmetic. -/
theorem c8_divide_and_round (a b : Int)
    (ha1 : smallestAmount ≤ a) (ha2 : a ≤ largestAmount)
    (hb0 : b ≠ 0) (hb1 : -(signMaxNeg : Int) ≤ b) (hb2 : b ≤ (signMaxPos : Int)) :
    DivideAndRound a b = some (roundHalfAwayFromZero a b) := by
  rw [show smallestAmount = (-9000000000000000 : Int) from rfl] at ha1
  rw [show largestAmount = (9000000000000000 : Int) from rfl] at ha2
  rw [show (signMaxNeg : Int) = (9223372036854775808 : Int) from rfl] at hb1
  rw [show (signMaxPos : Int) = (9223372036854775807 : Int) from rfl] at hb2
  have hx9 : a.natAbs ≤ 9000000000000000 := by omega
  have hy0 : 0 < b.natAbs := by omega
  have hy63 : b.natAbs ≤ 9223372036854775808 := by omega
  have h1 : Int.tdiv ((b.natAbs : Nat) : Int) 2 = ((b.natAbs / 2 : Nat) : Int) :=
    (Int.ofNat_tdiv b.natAbs 2).symm
  have hb' : a.natAbs + b.natAbs / 2 ≤ 4620686018427387904 := by omega
  rcases Int.natAbs_eq a with hxa | hxa <;> rcases Int.natAbs_eq b with hyb | hyb
  · -- a = |a| ≥ 0, b = |b| > 0
    rw [hxa, hyb]
    unfold DivideAndRound
    rw [if_neg (by omega), if_neg (by omega)]
    rw [dar_core a.natAbs b.natAbs hx9 hy0 hy63, roundAway_base a.natAbs b.natAbs hy0]
  · -- a = |a| ≥ 0, b = -|b| < 0
    rw [hxa, hyb]
    unfold DivideAndRound
    rw [if_neg (by omega), if_pos ⟨Or.inr (by omega), fun hand => by omega⟩]
    have e1 : ((a.natAbs : Nat) : Int) - Int.tdiv (-((b.natAbs : Nat) : Int)) 2 =
        ((a.natAbs + b.natAbs / 2 : Nat) : Int) := by
      rw [Int.neg_tdiv, h1]
      push_cast
      ring
    rw [e1]
    rw [wrap64_natCast_le _ (by omega), Int.tdiv_neg, ← Int.ofNat_tdiv,
      wrap64_neg_natCast_le _ (le_trans (Nat.div_le_self _ _) (by omega))]
    rw [roundAway_neg_right, roundAway_base a.natAbs b.natAbs hy0]
  · -- a = -|a| ≤ 0, b = |b| > 0
    rw [hxa, hyb]
    unfold DivideAndRound
    rw [if_neg (by omega)]
    by_cases hx0 : a.natAbs = 0
    · rw [hx0]
      rw [if_neg (by omega)]
      have e0 : (-((0 : Nat) : Int)) + Int.tdiv ((b.natAbs : Nat) : Int) 2 =
          ((0 : Nat) : Int) + Int.tdiv ((b.natAbs : Nat) : Int) 2 := by norm_num
      rw [e0, dar_core 0 b.natAbs (by omega) hy0 hy63]
      have e2 : (-((0 : Nat) : Int)) = ((0 : Nat) : Int) := by norm_num
      rw [e2, roundAway_base 0 b.natAbs hy0]
    · rw [if_pos ⟨Or.inl (by omega), fun hand => by omega⟩]
      have e1 : -((a.natAbs : Nat) : Int) - Int.tdiv ((b.natAbs : Nat) : Int) 2 =
          -((a.natAbs + b.natAbs / 2 : Nat) : Int) := by
        rw [h1]
        push_cast
        ring
      rw [e1, dar_core_neg a.natAbs b.natAbs hx9 hy0 hy63]
      rw [roundAway_neg_left, roundAway_base a.natAbs b.natAbs hy0]
  · -- a = -|a|, b = -|b| < 0
    rw [hxa, hyb]
    unfold DivideAndRound
    rw [if_neg (by omega)]
    by_cases hx0 : a.natAbs = 0
    · rw [hx0]
      rw [if_pos ⟨Or.inr (by omega), fun hand => by
        have := hand.1
        omega⟩]
      have e1 : (-((0 : Nat) : Int)) - Int.tdiv (-((b.natAbs : Nat) : Int)) 2 =
          ((0 + b.natAbs / 2 : Nat) : Int) := by
        rw [Int.neg_tdiv, h1]
        push_cast
        ring
      rw [e1]
      rw [wrap64_natCast_le _ (by omega), Int.tdiv_neg, ← Int.ofNat_tdiv,
        wrap64_neg_natCast_le _ (le_trans (Nat.div_le_self _ _) (by omega))]
      have e2 : (-((0 : Nat) : Int)) = ((0 : Nat) : Int) := by norm_num
      rw [e2, roundAway_neg_right, roundAway_base 0 b.natAbs hy0]
    · rw [if_neg (by intro hand; exact hand.2 ⟨by omega, by omega⟩)]
      have e1 : -((a.natAbs : Nat) : Int) + Int.tdiv (-((b.natAbs : Nat) : Int)) 2 =
          -((a.natAbs + b.natAbs / 2 : Nat) : Int) := by
        rw [Int.neg_tdiv, h1]
        push_cast
        ring
      rw [e1]
      rw [wrap64_neg_natCast_le _ (by omega), Int.neg_tdiv, Int.tdiv_neg, neg_neg,
        ← Int.ofNat_tdiv, wrap64_natCast_le _ (le_trans (Nat.div_le_self _ _) (by omega))]
      rw [roundAway_neg_right, roundAway_neg_left, neg_neg,
        roundAway_base a.natAbs b.natAbs hy0]

/-- C8 witness: `DivideAndRound(11, 2) = 6`, the half-away tie case
`5.5 → 6`, obtained from the general theorem. -/
theorem c8_divide_and_round_witness :
    DivideAndRound 11 2 = some (roundHalfAwayFromZero 11 2) :=
  c8_divide_and_round 11 2 (by decide) (by decide) (by decide) (by decide) (by decide)

/-! ## The accumulation lemma: scanning a block of digit bytes -/

theorem scanLoop_digits (ds : List Nat) (st : ScanState)
    (hall : ∀ c ∈ ds, 48 ≤ c ∧ c ≤ 57)
    (hsd : st.significantDigitFound = true ∨ st.dotFound = true)
    (hdot : st.dotFound = true → st.decimalPartLength + ds.length ≤ 7)
    (hnodot : st.dotFound = false → st.decimalPartLength = 0)
    (hbound : st.result * 10 ^ ds.length + valB ds ≤ signMaxPos) :
    scanLoop st ds = .ok
      { result := st.result * 10 ^ ds.length + valB ds,
        sign := st.sign,
        digitsFound := st.digitsFound || !ds.isEmpty,
        significantDigitFound := st.significantDigitFound || !ds.isEmpty,
        dotFound := st.dotFound,
        decimalPartLength :=
          st.decimalPartLength + (if st.dotFound = true then ds.length else 0) } := by
  induction ds generalizing st with
  | nil =>
    obtain ⟨r, sg, df, sig, dot, dpl⟩ := st
    simp [scanLoop, valB]
  | cons c t ih =>
    obtain ⟨hc1, hc2⟩ := hall c (List.mem_cons_self c t)
    obtain ⟨r, sg, df, sig, dot, dpl⟩ := st
    simp only at hsd hdot hnodot hbound ⊢
    have hvb : valB (c :: t) = (c - 48) * 10 ^ t.length + valB t := valB_cons c t
    have hrearr : (r * 10 + (c - 48)) * 10 ^ t.length + valB t
        = r * 10 ^ (c :: t).length + valB (c :: t) := by
      rw [hvb, List.length_cons, pow_succ]
      ring
    have hbound' : (r * 10 + (c - 48)) * 10 ^ t.length + valB t ≤ signMaxPos := by
      rw [hrearr]
      exact hbound
    have hkey : r * 10 + (c - 48) ≤ signMaxPos := by
      calc r * 10 + (c - 48) ≤ (r * 10 + (c - 48)) * 10 ^ t.length :=
            Nat.le_mul_of_pos_right _ (by positivity)
        _ ≤ (r * 10 + (c - 48)) * 10 ^ t.length + valB t := Nat.le_add_right _ _
        _ ≤ signMaxPos := hbound'
    have hkey' : r * 10 + (c - 48) ≤ 9223372036854775807 := by
      rw [show signMaxPos = 9223372036854775807 from rfl] at hkey
      exact hkey
    have h46 : ¬ (c = 46) := by omega
    have hU : r * 10 + (c - 48) < U64 := by
      rw [show U64 = 18446744073709551616 from rfl]
      omega
    have hU1 : r * 10 < U64 := by
      rw [show U64 = 18446744073709551616 from rfl] at hU ⊢
      omega
    have hmod1 : r * 10 % U64 = r * 10 := Nat.mod_eq_of_lt hU1
    have hmod2 : (r * 10 + (c - 48)) % U64 = r * 10 + (c - 48) := Nat.mod_eq_of_lt hU
    cases dot with
    | false =>
      have hsig : sig = true := by
        rcases hsd with h | h
        · exact h
        · exact absurd h (by simp)
      subst hsig
      have hdpl0 : dpl = 0 := hnodot rfl
      subst hdpl0
      have hstep : scanStep ⟨r, sg, df, true, false, 0⟩ c =
          .ok ⟨r * 10 + (c - 48), sg, true, true, false, 0⟩ := by
        unfold scanStep
        rw [if_neg h46, if_pos ⟨hc1, hc2⟩]
        dsimp only
        rw [if_neg (by simp)]
        rw [if_neg (by rw [show precisionExpN = 6 from rfl]; omega)]
        rw [hmod1]
        rw [if_neg (by rw [Nat.mul_div_cancel r (by norm_num : (0 : Nat) < 10)]; simp)]
        rw [hmod2]
        rw [if_neg (by omega : ¬ (r * 10 + (c - 48) < r * 10))]
        rw [if_neg (by
          rw [show signMaxPos = 9223372036854775807 from rfl,
            show signMaxNeg = 9223372036854775808 from rfl]
          rintro (⟨_, hgt⟩ | ⟨_, hgt⟩) <;> omega)]
        rfl
      simp only [scanLoop]
      rw [hstep]
      dsimp only
      rw [ih ⟨r * 10 + (c - 48), sg, true, true, false, 0⟩
        (fun x hx => hall x (List.mem_cons_of_mem c hx))
        (Or.inl rfl) (by simp) (fun _ => rfl)
        (by dsimp only; rw [hrearr]; exact hbound)]
      simp [← hrearr]
      rw [hrearr, List.length_cons]
    | true =>
      have hdpl7 : dpl + (c :: t).length ≤ 7 := hdot rfl
      rw [List.length_cons] at hdpl7
      have hstep : scanStep ⟨r, sg, df, sig, true, dpl⟩ c =
          .ok ⟨r * 10 + (c - 48), sg, true, true, true, dpl + 1⟩ := by
        unfold scanStep
        rw [if_neg h46, if_pos ⟨hc1, hc2⟩]
        dsimp only
        rw [if_neg (by simp)]
        rw [if_neg (by rw [show precisionExpN = 6 from rfl]; omega)]
        rw [hmod1]
        rw [if_neg (by rw [Nat.mul_div_cancel r (by norm_num : (0 : Nat) < 10)]; simp)]
        rw [hmod2]
        rw [if_neg (by omega : ¬ (r * 10 + (c - 48) < r * 10))]
        rw [if_neg (by
          rw [show signMaxPos = 9223372036854775807 from rfl,
            show signMaxNeg = 9223372036854775808 from rfl]
          rintro (⟨_, hgt⟩ | ⟨_, hgt⟩) <;> omega)]
        rfl
      simp only [scanLoop]
      rw [hstep]
      dsimp only
      rw [ih ⟨r * 10 + (c - 48), sg, true, true, true, dpl + 1⟩
        (fun x hx => hall x (List.mem_cons_of_mem c hx))
        (Or.inl rfl) (by dsimp only; intro _; omega) (by simp)
        (by dsimp only; rw [hrearr]; exact hbound)]
      simp [← hrearr]
      refine ⟨by rw [hrearr, List.length_cons], by omega⟩

/-! ## Scanning the integer part, the dot, and leading zero -/

theorem scanLoop_natRepr (m : Nat) (hm1 : 1 ≤ m) (hm2 : m ≤ signMaxPos) (sg : Int) :
    scanLoop (initState sg) (natRepr m) = .ok ⟨m, sg, true, true, false, 0⟩ := by
  obtain ⟨d, t, hrepr⟩ : ∃ d t, natRepr m = d :: t := by
    cases h : natRepr m with
    | nil => exact absurd h (natRepr_ne_nil m)
    | cons d t => exact ⟨d, t, rfl⟩
  obtain ⟨hd1, hd2⟩ := natRepr_head_pos m (by omega) d t hrepr
  have hdigits := natRepr_digits m
  have hval : (d - 48) * 10 ^ t.length + valB t = m := by
    have h0 : valB (d :: t) = m := by rw [← hrepr]; exact natRepr_val m
    rw [valB_cons] at h0
    exact h0
  rw [hrepr]
  have hstep : scanStep (initState sg) 48 = scanStep (initState sg) 48 := rfl
  have hstep1 : scanStep (initState sg) d = .ok ⟨d - 48, sg, true, true, false, 0⟩ := by
    unfold scanStep initState
    rw [if_neg (by omega : ¬ (d = 46)), if_pos ⟨by omega, hd2⟩]
    dsimp only
    rw [if_neg (by rintro ⟨_, _, h⟩; omega)]
    rw [if_neg (by rw [show precisionExpN = 6 from rfl]; omega)]
    have e1 : (0 : Nat) * 10 % U64 = 0 := by norm_num
    rw [e1]
    rw [if_neg (by norm_num)]
    have e2 : (0 + (d - 48)) % U64 = d - 48 := by
      rw [show U64 = 18446744073709551616 from rfl]
      omega
    rw [e2]
    rw [if_neg (by omega : ¬ (d - 48 < 0))]
    rw [if_neg (by
      rw [show signMaxPos = 9223372036854775807 from rfl,
        show signMaxNeg = 9223372036854775808 from rfl]
      rintro (⟨_, h⟩ | ⟨_, h⟩) <;> omega)]
    rfl
  simp only [scanLoop]
  rw [hstep1]
  dsimp only
  rw [scanLoop_digits t ⟨d - 48, sg, true, true, false, 0⟩
    (fun x hx => hdigits x (hrepr ▸ List.mem_cons_of_mem d hx))
    (Or.inl rfl) (by intro h; simp at h) (fun _ => rfl)
    (by dsimp only; rw [hval]; exact hm2)]
  simp [hval]

theorem scanStep_dot (st : ScanState) (hdot : st.dotFound = false) :
    scanStep st 46 = .ok { st with dotFound := true } := by
  unfold scanStep
  rw [if_pos rfl, if_neg (by simp [hdot])]

theorem scanStep_zero_skip (st : ScanState) (hsig : st.significantDigitFound = false)
    (hdot : st.dotFound = false) :
    scanStep st 48 = .ok { st with digitsFound := true } := by
  unfold scanStep
  rw [if_neg (by norm_num), if_pos (by norm_num)]
  dsimp only
  rw [if_pos ⟨hsig, hdot, rfl⟩]

/-! ## The normalization loop and the finish phase -/

theorem scaleLoop_ok (k : Nat) : ∀ r : Nat, r * 10 ^ k < U64 → scaleLoop r k = .ok (r * 10 ^ k) := by
  induction k with
  | zero =>
    intro r h
    simp [scaleLoop]
  | succ k ih =>
    intro r h
    have h1 : r * 10 < U64 := by
      calc r * 10 ≤ r * 10 * 10 ^ k := Nat.le_mul_of_pos_right _ (by positivity)
        _ = r * 10 ^ (k + 1) := by ring
        _ < U64 := h
    simp only [scaleLoop]
    rw [Nat.mod_eq_of_lt h1]
    rw [if_neg (by rw [Nat.mul_div_cancel r (by norm_num : (0 : Nat) < 10)]; simp)]
    rw [ih (r * 10) (by
      calc r * 10 * 10 ^ k = r * 10 ^ (k + 1) := by ring
        _ < U64 := h)]
    congr 1
    ring

